import Mathlib

/-!
Verification development for the transcription core of `gdrive-transcriber`
(`src/transcriber/model.py` and `src/transcriber/utils.py`).

The Python code is shallowly embedded:

* seconds are modelled as `ℚ` (Python floats, idealized as exact rationals);
* the remote transcription capability, the file-size lookup (`os.path.getsize`),
  the duration prober (`_probe_duration`, which already catches its own errors
  and returns `0.0` on failure) and the slice encoder (`_encode_slice`, whose
  `subprocess.check_call` failures are *not* caught and propagate) are modelled
  by an explicit environment `Env`;
* Python exceptions that escape a function are modelled with `Except String`;
* the per-attempt behaviour of the remote service is a function of the path and
  of the 1-based attempt number within one `transcribe_segment` invocation;
* remote calls and backoff sleeps are recorded in an explicit event trace.
-/

/-- Outcome of one interaction with the remote transcription capability
(`model.transcribe_async(...)` followed by draining the async generator):
either the whole interaction raises with a message, or it yields a list of
text chunks. -/
inductive RemoteOutcome
  | raises (msg : String)
  | yields (chunks : List String)
deriving Repr, DecidableEq

/-- Observable side effects of the transcription core: a remote transcription
call on a path (with its 1-based attempt number) or an `asyncio.sleep` of a
whole number of seconds (the linear backoff). -/
inductive Event
  | remoteCall (path : String) (attempt : ℕ)
  | sleepSecs (n : ℕ)
deriving Repr, DecidableEq

/-- The Python result dicts of `model.py`. A success / placeholder dict has
`text = some _`; a split signal has `split_required = true` and carries
`segment_path = some _`. All results carry `start_s` / `end_s`. -/
structure SegResult where
  index : ℚ
  start_s : ℚ
  end_s : ℚ
  text : Option String := none
  split_required : Bool := false
  segment_path : Option String := none
deriving Repr, DecidableEq

deriving instance DecidableEq for Except

/-- Environment: the external world as seen by `model.py`.
`remote p a` is the outcome of the `a`-th attempt (1-based, within a single
`transcribe_segment` invocation) of transcribing path `p`; `size` is
`os.path.getsize` (with `0` for a missing file, matching the
`os.path.exists` guard); `probe` is `_probe_duration` (returns `0` on
failure, since that function catches all its own exceptions); `encodeErr src
dst start dur` is `some msg` when the `_encode_slice` invocation raises;
`listdir` is the working-directory listing used by `transcribe_file`. -/
structure Env where
  remote : String → ℕ → RemoteOutcome
  size : String → ℕ
  probe : String → ℚ
  encodeErr : String → String → ℚ → ℚ → Option String
  listdir : List String

/-! ## `utils.clean_some_unicode_from_text` -/

/-- The string of characters removed by `clean_some_unicode_from_text`,
built exactly as in `src/transcriber/utils.py`. -/
def chars_to_remove : String :=
  "\u061C"
    ++ "\u200B\u200C\u200D"
    ++ "\u200E\u200F"
    ++ "\u202A\u202B\u202C\u202D\u202E"
    ++ "\u2066\u2067\u2068\u2069"
    ++ "\uFEFF"

/-- `text.translate({ord(c): None for c in chars_to_remove})`: every character
whose code point is a key of the table is deleted, every other character is
kept unchanged. -/
def clean_some_unicode_from_text (text : String) : String :=
  ⟨text.data.filter (fun c => !(chars_to_remove.data.contains c))⟩

/-! ## `_format_ts` and placeholders -/

/-- Python `round` to the nearest integer, halves to even (used on the float
`seconds` in `_format_ts`). -/
def pythonRound (q : ℚ) : ℤ :=
  let f := q.floor
  let r := q - (f : ℚ)
  if r < 1 / 2 then f
  else if 1 / 2 < r then f + 1
  else if f % 2 = 0 then f else f + 1

/-- Python `f"{n:02d}"`: left-pad with `0` to width 2 (numbers of two or more
characters, including negative ones, print as-is). -/
def pad2 (n : ℤ) : String :=
  if 0 ≤ n ∧ n < 10 then "0" ++ toString n else toString n

/-- `_format_ts` from `model.py`: `total = int(round(seconds))`, then
`h = total // 3600`, `m = (total % 3600) // 60`, `s = total % 60` with
Python's floor division / nonnegative-for-positive-divisor modulo, formatted
`{h:02d}:{m:02d}:{s:02d}`. -/
def _format_ts (seconds : ℚ) : String :=
  let total := pythonRound seconds
  let h := Int.fdiv total 3600
  let m := Int.fdiv (Int.fmod total 3600) 60
  let s := Int.fmod total 60
  pad2 h ++ ":" ++ pad2 m ++ ":" ++ pad2 s

/-- The placeholder grammar of `model.py`:
`[Transcription failed - <start> - <end> Reason: <reason>]`. -/
def placeholderText (start_s end_s : ℚ) (reason : String) : String :=
  "[Transcription failed - " ++ _format_ts start_s ++ " - " ++ _format_ts end_s
    ++ " Reason: " ++ reason ++ "]"

/-- Python `last_error or 'unknown'` where `last_error` is `None` or a string
(the empty string is falsy). -/
def orUnknown : Option String → String
  | none => "unknown"
  | some m => if m = "" then "unknown" else m

/-! ## Payload-size error detection (`PAYLOAD_ERR_RE.search`) -/

/-- Drop an expected literal from the front of a character list, returning the
rest on success. -/
def dropLit : List Char → List Char → Option (List Char)
  | [], cs => some cs
  | _ :: _, [] => none
  | l :: ls, c :: cs => if c = l then dropLit ls cs else none

/-- Does the regular expression
`Payload length is (\d+), exceeding max payload length of (\d+)` match at the
head of `cs`?  (`\d` is modelled as an ASCII digit; since each digit group is
followed by a non-digit literal, greedy maximal munch is exact here.) -/
def payloadMatchAt (cs : List Char) : Bool :=
  match dropLit "Payload length is ".data cs with
  | none => false
  | some r1 =>
    let ds := r1.takeWhile Char.isDigit
    !ds.isEmpty &&
      (match dropLit ", exceeding max payload length of ".data (r1.drop ds.length) with
       | none => false
       | some r2 => !(r2.takeWhile Char.isDigit).isEmpty)

/-- Try the pattern at every start position, as `re.search` does. -/
def searchFrom : List Char → Bool
  | [] => false
  | c :: cs => payloadMatchAt (c :: cs) || searchFrom cs

/-- `PAYLOAD_ERR_RE.search(msg) is not None`. -/
def payloadErrSearch (msg : String) : Bool :=
  searchFrom msg.data

/-! ## `transcribe_segment` -/

/-- Python `str.strip()` on the characters `str.strip` treats as whitespace
(modelled as the ASCII whitespace set). -/
def isPySpace (c : Char) : Bool :=
  c = ' ' || c = '\t' || c = '\n' || c = '\r' || c = '\x0b' || c = '\x0c'

/-- Remove leading and trailing whitespace, Python `.strip()`. -/
def pyStrip (s : String) : String :=
  ⟨((s.data.dropWhile isPySpace).reverse.dropWhile isPySpace).reverse⟩

/-- The text assembled from one successful remote interaction: each chunk is
cleaned (`clean_some_unicode_from_text`), the chunks are joined with
newlines, and the result is stripped — `"\n".join(collected).strip()`. -/
def collectText (chunks : List String) : String :=
  pyStrip (String.intercalate "\n" (chunks.map clean_some_unicode_from_text))

/-- The retry loop of `transcribe_segment`, iterating over the remaining
attempt numbers (the Python `for attempt in range(1, attempts + 1)` loop,
entered with the list `[1, …, attempts]`).  `rest.isEmpty` is exactly the
Python guard `attempt < attempts` being false, so a sleep is emitted after
every attempt except the last.  Returns the result dict and the trace of
remote calls and sleeps. -/
def transcribe_segment_loop (remote : ℕ → RemoteOutcome) (segment_path : String)
    (index start_s end_s : ℚ) :
    List ℕ → Option String → SegResult × List Event
  | [], last_error =>
    ({ index := index, start_s := start_s, end_s := end_s,
       text := some (placeholderText start_s end_s (orUnknown last_error)) }, [])
  | attempt :: rest, last_error =>
    match remote attempt with
    | .yields chunks =>
      let text := collectText chunks
      if text ≠ "" then
        ({ index := index, start_s := start_s, end_s := end_s, text := some text },
         [.remoteCall segment_path attempt])
      else
        let next := transcribe_segment_loop remote segment_path index start_s end_s rest
          (some "empty transcription")
        (next.1, .remoteCall segment_path attempt ::
          (if rest.isEmpty then [] else [.sleepSecs attempt]) ++ next.2)
    | .raises msg =>
      if payloadErrSearch msg then
        ({ index := index, start_s := start_s, end_s := end_s,
           split_required := true, segment_path := some segment_path },
         [.remoteCall segment_path attempt])
      else
        let next := transcribe_segment_loop remote segment_path index start_s end_s rest
          (some msg)
        (next.1, .remoteCall segment_path attempt ::
          (if rest.isEmpty then [] else [.sleepSecs attempt]) ++ next.2)

/-- `transcribe_segment` from `model.py`: `attempts = max_retries + 1` total
attempts over the remote capability.  (`payload_size_cap` is accepted but, as
in the source, unused in the body.) -/
def transcribe_segment (remote : ℕ → RemoteOutcome) (segment_path : String)
    (index start_s end_s : ℚ) (max_retries : ℕ) (payload_size_cap : ℕ) :
    SegResult × List Event :=
  transcribe_segment_loop remote segment_path index start_s end_s
    (List.range' 1 (max_retries + 1)) none

/-- Number of remote calls in a trace. -/
def countCalls (tr : List Event) : ℕ :=
  tr.countP (fun ev => match ev with | .remoteCall _ _ => true | _ => false)


/-! ## `_recursive_split_and_transcribe`

The Python function recurses with `depth + 1` and stops splitting as soon as
`depth >= max_depth`.  Since the body uses `depth` and `max_depth` only through
the test `depth >= max_depth` — which is equivalent to `max_depth - depth = 0`
(truncated `ℕ` subtraction) — the recursion is embedded structurally on the
remaining budget `gas = max_depth - depth`; each recursive call of the source
increases `depth` by exactly 1, i.e. decreases `gas` by exactly 1. -/

/-- The leaf emitted when the branch gives up:
`{"index": start_s, "text": placeholder, "start_s": ..., "end_s": ...}`. -/
def placeholderLeaf (start_s end_s : ℚ) (reason : String) : SegResult :=
  { index := start_s, start_s := start_s, end_s := end_s,
    text := some (placeholderText start_s end_s reason) }

/-- Python `int()` truncation of a float toward zero (used for
`int(start_s)`). -/
def pyInt (q : ℚ) : ℤ :=
  if 0 ≤ q then q.floor else q.ceil

/-- Body of `_recursive_split_and_transcribe` (with `gas = max_depth - depth`):

* `raw_size = os.path.getsize(path) if os.path.exists(path) else 0`;
* if `raw_size <= payload_size_cap or depth >= max_depth` (i.e. `gas = 0`):
  * oversized: emit the `payload-too-large-after-splits` placeholder, no
    remote call;
  * otherwise call `transcribe_segment(model, path, int(start_s), start_s,
    end_s, max_retries=0, ...)`; a `split_required` answer becomes the
    terminal `payload-error-persistent` placeholder;
* else probe the duration (`_probe_duration(path) or (end_s - start_s) or
  1.0`, where `or` skips falsy `0.0`), halve it, encode the two slices
  (`check_call` failures propagate as `.error`), recurse on
  `<path>_partL.mp3` over `[start_s, start_s + half)` and `<path>_partR.mp3`
  over `[start_s + half, end_s)` at `depth + 1`, and return left results
  followed by right results. -/
def splitGo (env : Env) (payload_size_cap max_retries : ℕ) :
    ℕ → String → ℚ → ℚ → Except String (List SegResult × List Event)
  | gas, path, start_s, end_s =>
    let raw_size := env.size path
    if raw_size ≤ payload_size_cap ∨ gas = 0 then
      if raw_size > payload_size_cap then
        .ok ([placeholderLeaf start_s end_s "payload-too-large-after-splits"], [])
      else
        let term := transcribe_segment (env.remote path) path ((pyInt start_s : ℤ) : ℚ)
          start_s end_s 0 payload_size_cap
        if term.1.split_required then
          .ok ([placeholderLeaf start_s end_s "payload-error-persistent"], term.2)
        else
          .ok ([term.1], term.2)
    else
      match gas with
      | 0 => .ok ([], [])
      | g + 1 =>
        let dur0 := env.probe path
        let dur := if dur0 ≠ 0 then dur0 else if end_s - start_s ≠ 0 then end_s - start_s else 1
        let half := dur / 2
        let left_path := path ++ "_partL.mp3"
        let right_path := path ++ "_partR.mp3"
        match env.encodeErr path left_path 0 half with
        | some msg => .error msg
        | none =>
          match env.encodeErr path right_path half (dur - half) with
          | some msg => .error msg
          | none =>
            match splitGo env payload_size_cap max_retries g left_path start_s (start_s + half) with
            | .error msg => .error msg
            | .ok (left_res, ltr) =>
              match splitGo env payload_size_cap max_retries g right_path (start_s + half) end_s with
              | .error msg => .error msg
              | .ok (right_res, rtr) => .ok (left_res ++ right_res, ltr ++ rtr)

/-- `_recursive_split_and_transcribe(model, path, start_s, end_s, depth,
max_depth, payload_size_cap, max_retries)`. -/
def _recursive_split_and_transcribe (env : Env) (path : String) (start_s end_s : ℚ)
    (depth max_depth payload_size_cap max_retries : ℕ) :
    Except String (List SegResult × List Event) :=
  splitGo env payload_size_cap max_retries (max_depth - depth) path start_s end_s

/-! ## `transcribe_file` and the final assembly -/

/-- `re.match(r"seg\d{3}\.mp3", f)`: an (unanchored-at-the-end) prefix match
of `seg`, three ASCII digits, `.mp3`. -/
def segNameMatch (s : String) : Bool :=
  match s.data with
  | 's' :: 'e' :: 'g' :: d1 :: d2 :: d3 :: '.' :: 'm' :: 'p' :: '3' :: _ =>
    d1.isDigit && d2.isDigit && d3.isDigit
  | _ => false

/-- Insert `a` in front of the first element `b` with `le a b`; keeps the
relative order of the other elements. -/
def stableInsert (le : α → α → Bool) (a : α) : List α → List α
  | [] => [a]
  | b :: t => if le a b then a :: b :: t else b :: stableInsert le a t

/-- Stable insertion sort: the model of Python's (stable) `list.sort` /
`sorted`. An element is placed before a later element of equal key, never
behind it. -/
def stableSort (le : α → α → Bool) : List α → List α
  | [] => []
  | a :: t => stableInsert le a (stableSort le t)

/-- Python string comparison: lexicographic on code points. -/
def strLe (a b : String) : Bool :=
  a == b || decide (a < b)

/-- `os.path.join(work_dir, fname)` for a relative `fname`. -/
def pathJoin (a b : String) : String := a ++ "/" ++ b

/-- The sorted list of segment file names:
`[f for f in os.listdir(work_dir) if re.match(...)]` followed by
`segments.sort()`. -/
def segmentsOf (env : Env) : List String :=
  stableSort strLe (env.listdir.filter segNameMatch)

/-- `_probe_duration(p) or float(seg_seconds)` for one segment file. -/
def segDuration (env : Env) (work_dir : String) (seg_seconds : ℕ) (fname : String) : ℚ :=
  let d := env.probe (pathJoin work_dir fname)
  if d ≠ 0 then d else (seg_seconds : ℚ)

/-- The cumulative `starts`/`ends` walk: `starts.append(cursor); cursor += d;
ends.append(cursor)`. -/
def cumRanges (cursor : ℚ) : List ℚ → List (ℚ × ℚ)
  | [] => []
  | d :: ds => (cursor, cursor + d) :: cumRanges (cursor + d) ds

/-- The per-segment jobs: file name with its precomputed time range. -/
def jobsOf (env : Env) (work_dir : String) (seg_seconds : ℕ) : List (String × ℚ × ℚ) :=
  (segmentsOf env).zip
    (cumRanges 0 ((segmentsOf env).map (segDuration env work_dir seg_seconds)))

/-- The results of the top-level `asyncio.gather` over `_run(i, f)`: one
`transcribe_segment` call per job, in task order (`gather` returns results in
submission order regardless of completion order). -/
def runJobs (env : Env) (work_dir : String) (max_retries payload_size_cap : ℕ) :
    ℕ → List (String × ℚ × ℚ) → List SegResult
  | _, [] => []
  | i, (f, se) :: rest =>
    (transcribe_segment (env.remote (pathJoin work_dir f)) (pathJoin work_dir f) (i : ℚ) se.1 se.2
        max_retries payload_size_cap).1
      :: runJobs env work_dir max_retries payload_size_cap (i + 1) rest

/-- The sequential expansion loop over `base_results`: results flagged
`split_required` are replaced by the leaves of
`_recursive_split_and_transcribe` (at `depth = 0`), others are kept; an
exception escaping the splitter propagates. -/
def expandResults (env : Env) (max_split_depth payload_size_cap max_retries : ℕ) :
    List SegResult → Except String (List SegResult)
  | [] => .ok []
  | r :: rest =>
    if r.split_required then
      match _recursive_split_and_transcribe env (r.segment_path.getD "") r.start_s r.end_s
          0 max_split_depth payload_size_cap max_retries with
      | .error msg => .error msg
      | .ok (leaves, _) =>
        match expandResults env max_split_depth payload_size_cap max_retries rest with
        | .error msg => .error msg
        | .ok tail => .ok (leaves ++ tail)
    else
      match expandResults env max_split_depth payload_size_cap max_retries rest with
      | .error msg => .error msg
      | .ok tail => .ok (r :: tail)

/-- `expanded.sort(key=lambda r: r.get("start_s", 0))` — a stable sort by
ascending `start_s` (every result carries `start_s`). -/
def resLe (a b : SegResult) : Bool :=
  decide (a.start_s ≤ b.start_s)

/-- The final ordering step of `transcribe_file`. -/
def sortResults (l : List SegResult) : List SegResult :=
  stableSort resLe l

/-- `transcribe_file` from `model.py`.  The splitter invocation
(`splitter_fn` / `bypass_split`) only prepares files on disk; its outcome is
the directory listing `env.listdir`.  `max_concurrency` bounds scheduling
only (see the semaphore model below) and does not affect the value computed;
`asyncio.gather` preserves task order.  Returns
`("\n\n".join(texts of the start-sorted leaves), segments)`, or `("", [])`
when no segment file is present; an exception escaping the splitter
propagates. -/
def transcribe_file (env : Env) (work_dir : String) (seg_seconds : ℕ)
    (max_concurrency : ℕ) (max_segment_retries max_payload_size max_split_depth : ℕ) :
    Except String (String × List String) :=
  let segments := segmentsOf env
  if segments.isEmpty then .ok ("", [])
  else
    let base := runJobs env work_dir max_segment_retries max_payload_size 0
      (jobsOf env work_dir seg_seconds)
    match expandResults env max_split_depth max_payload_size max_segment_retries base with
    | .error msg => .error msg
    | .ok expanded =>
      .ok (String.intercalate "\n\n" ((sortResults expanded).map (fun r => r.text.getD "")),
        segments)

/-! ## The concurrency gate of `transcribe_file`

`transcribe_file` creates `sem = asyncio.Semaphore(max_concurrency)` and runs
every top-level job as `async with sem: await transcribe_segment(...)`; the
retries and backoff sleeps inside `transcribe_segment` happen while the
permit is held, and each holder performs its remote calls sequentially.  This
is modelled as a small-step transition system: each task is `pending` (not
yet holding a permit), `acquired b` (holding a permit; `b` is true exactly
while one of its remote calls is in flight) or `done` (permit released).  A
permit is taken on acquire and handed back on release, exactly the
(counter-based) behaviour of `asyncio.Semaphore`. -/

/-- Phase of one top-level transcription task. -/
inductive TaskPhase
  | pending
  | acquired (inCall : Bool)
  | done
deriving Repr, DecidableEq

/-- Scheduler state: free permits of the semaphore, and the phase of every
task. -/
structure SchedState where
  avail : ℕ
  tasks : List TaskPhase
deriving Repr, DecidableEq

/-- Is the task holding a permit? -/
def isAcquired : TaskPhase → Bool
  | .acquired _ => true
  | _ => false

/-- Is one of the task's remote calls in flight? -/
def isInCall : TaskPhase → Bool
  | .acquired true => true
  | _ => false

/-- Number of simultaneously in-flight remote transcription calls. -/
def inFlight (st : SchedState) : ℕ :=
  st.tasks.countP isInCall

/-- Number of tasks currently inside `async with sem`. -/
def holders (st : SchedState) : ℕ :=
  st.tasks.countP isAcquired

/-- One scheduler step: a pending task acquires a free permit, a permit
holder starts or finishes one of its (sequential) remote calls, or a holder
releases its permit on completion (`async with` releases unconditionally,
also on error). -/
inductive SchedStep : SchedState → SchedState → Prop
  | acquire (st : SchedState) (i a : ℕ) (h : st.tasks.get? i = some .pending)
      (ha : st.avail = a + 1) :
      SchedStep st ⟨a, st.tasks.set i (.acquired false)⟩
  | beginCall (st : SchedState) (i : ℕ) (h : st.tasks.get? i = some (.acquired false)) :
      SchedStep st ⟨st.avail, st.tasks.set i (.acquired true)⟩
  | endCall (st : SchedState) (i : ℕ) (h : st.tasks.get? i = some (.acquired true)) :
      SchedStep st ⟨st.avail, st.tasks.set i (.acquired false)⟩
  | release (st : SchedState) (i : ℕ) (h : st.tasks.get? i = some (.acquired false)) :
      SchedStep st ⟨st.avail + 1, st.tasks.set i .done⟩

/-- States reachable from `init` by scheduler steps. -/
inductive SchedReach (init : SchedState) : SchedState → Prop
  | refl : SchedReach init init
  | tail {st st' : SchedState} : SchedReach init st → SchedStep st st' → SchedReach init st'

/-- The initial state of `transcribe_file`'s gather phase:
`asyncio.Semaphore(max_concurrency)` full, all `k` tasks pending. -/
def initSched (max_concurrency k : ℕ) : SchedState :=
  ⟨max_concurrency, List.replicate k .pending⟩

/-! ## Concrete environments used by the scenario theorems -/

/-- One oversized segment (`50 > cap 10`) whose first remote call reports the
payload-size error; both encoded halves have size `5 ≤ cap` and transcribe
successfully (`"L"` / `"R"`); probing fails (`0`), so the fallback duration
`end - start` is used. -/
def envSplitOk : Env :=
  { remote := fun p _ =>
      if p = "wd/seg000.mp3" then
        .raises "Payload length is 50000, exceeding max payload length of 10000"
      else if p = "wd/seg000.mp3_partL.mp3" then .yields ["L"]
      else if p = "wd/seg000.mp3_partR.mp3" then .yields ["R"]
      else .raises "boom"
    size := fun p => if p = "wd/seg000.mp3" then 50 else 5
    probe := fun _ => 0
    encodeErr := fun _ _ _ _ => none
    listdir := ["seg000.mp3"] }

/-- Same world as `envSplitOk`, except that every `_encode_slice` invocation
raises (`subprocess.check_call` failure). -/
def envEncodeFail : Env :=
  { envSplitOk with encodeErr := fun _ _ _ _ => some "boom-encode" }

/-- A split node `[0, 1)` whose probed duration is `10`, disagreeing with
`end - start = 1`: the halves are assigned ranges `[0, 5)` and `[5, 1)`. -/
def envProbeSkew : Env :=
  { remote := fun p _ =>
      if p = "a.mp3" then .raises "Payload length is 50, exceeding max payload length of 10"
      else if p = "a.mp3_partL.mp3" then .yields ["L"]
      else .yields ["R"]
    size := fun p => if p = "a.mp3" then 50 else 5
    probe := fun p => if p = "a.mp3" then 10 else 0
    encodeErr := fun _ _ _ _ => none
    listdir := [] }

/-! # Theorems

## Generic lemmas about the stable insertion sort -/

theorem stableInsert_perm (le : α → α → Bool) (a : α) :
    ∀ l : List α, (stableInsert le a l).Perm (a :: l) := by
  intro l
  induction l with
  | nil => simp [stableInsert]
  | cons b t ih =>
    by_cases h : le a b = true
    · simp [stableInsert, h]
    · simp only [stableInsert, h]
      rw [if_neg (by simp [h])]
      exact (ih.cons b).trans (List.Perm.swap a b t)

theorem stableSort_perm (le : α → α → Bool) :
    ∀ l : List α, (stableSort le l).Perm l := by
  intro l
  induction l with
  | nil => simp [stableSort]
  | cons a t ih =>
    exact (stableInsert_perm le a (stableSort le t)).trans (ih.cons a)

theorem pairwise_stableInsert (le : α → α → Bool)
    (htot : ∀ x y, le x y = true ∨ le y x = true)
    (htrans : ∀ x y z, le x y = true → le y z = true → le x z = true)
    (a : α) : ∀ l : List α, l.Pairwise (fun x y => le x y = true) →
      (stableInsert le a l).Pairwise (fun x y => le x y = true) := by
  intro l
  induction l with
  | nil => simp [stableInsert]
  | cons b t ih =>
    intro hp
    rcases List.pairwise_cons.mp hp with ⟨hb, ht⟩
    by_cases h : le a b = true
    · simp only [stableInsert, h, if_true]
      refine List.pairwise_cons.mpr ⟨?_, hp⟩
      intro x hx
      rcases List.mem_cons.mp hx with rfl | hx
      · exact h
      · exact htrans a b x h (hb x hx)
    · simp only [stableInsert, h]
      rw [if_neg (by simp [h])]
      refine List.pairwise_cons.mpr ⟨?_, ih ht⟩
      have hba : le b a = true := (htot a b).resolve_left h
      intro x hx
      have hx' := (stableInsert_perm le a t).mem_iff.mp hx
      rcases List.mem_cons.mp hx' with rfl | hxt
      · exact hba
      · exact hb x hxt

theorem pairwise_stableSort (le : α → α → Bool)
    (htot : ∀ x y, le x y = true ∨ le y x = true)
    (htrans : ∀ x y z, le x y = true → le y z = true → le x z = true) :
    ∀ l : List α, (stableSort le l).Pairwise (fun x y => le x y = true) := by
  intro l
  induction l with
  | nil => simp [stableSort]
  | cons a t ih => exact pairwise_stableInsert le htot htrans a _ ih

/-! ## Claim C10 -/

/-- The sixteen code points enumerated in the specification of
`clean_some_unicode_from_text`. -/
def listedInvisibleChars : List Char :=
  ['\u061C', '\u200B', '\u200C', '\u200D', '\u200E', '\u200F',
   '\u202A', '\u202B', '\u202C', '\u202D', '\u202E',
   '\u2066', '\u2067', '\u2068', '\u2069', '\uFEFF']

theorem chars_to_remove_eq_listed : chars_to_remove.data = listedInvisibleChars := by
  decide

/-- C10 (amended): `clean_some_unicode_from_text` removes exactly the listed
invisible code points — but the enumerated list has sixteen entries, not
fifteen: the sixteen code points are pairwise distinct and all of them are
removed. -/
theorem C10_counterexample :
    clean_some_unicode_from_text chars_to_remove = ""
      ∧ chars_to_remove.data.length = 16
      ∧ chars_to_remove.data.Nodup := by
  refine ⟨by decide, by decide, by decide⟩

/-- C10 (amended): `clean_some_unicode_from_text` removes exactly the sixteen
listed invisible code points and keeps every other character unchanged and in
order (it is the filter dropping exactly those characters); its output never
contains a listed code point; and it is idempotent. -/
theorem C10_clean_unicode_spec (t : String) :
    (clean_some_unicode_from_text t).data
        = t.data.filter (fun c => !(listedInvisibleChars.contains c))
      ∧ clean_some_unicode_from_text (clean_some_unicode_from_text t)
          = clean_some_unicode_from_text t
      ∧ ∀ c, c ∈ (clean_some_unicode_from_text t).data → c ∉ listedInvisibleChars := by
  refine ⟨?_, ?_, ?_⟩
  · simp only [clean_some_unicode_from_text, chars_to_remove_eq_listed]
  · show (⟨(clean_some_unicode_from_text t).data.filter _⟩ : String) = _
    rw [clean_some_unicode_from_text]
    congr 1
    rw [List.filter_filter]
    apply List.filter_congr
    intro c _
    rw [Bool.and_self]
  · intro c hc
    rw [clean_some_unicode_from_text] at hc
    simp only [List.mem_filter, chars_to_remove_eq_listed] at hc
    simpa using hc.2

theorem C10_witness :
    clean_some_unicode_from_text (clean_some_unicode_from_text "a\u200Bb")
        = clean_some_unicode_from_text "a\u200Bb"
      ∧ 'a' ∉ listedInvisibleChars := by
  refine ⟨(C10_clean_unicode_spec "a\u200Bb").2.1, ?_⟩
  exact (C10_clean_unicode_spec "a\u200Bb").2.2 'a' (by decide)

/-! ## Claim C4 -/

/-- C4: the recursive splitter is a total function of its inputs (the
embedding recurses structurally on the remaining depth budget
`max_depth - depth`, which each recursive call of the source decreases by
exactly 1), and in the depth-exhausted base case — `depth ≥ max_depth` with
the file still larger than `payload_size_cap` — it emits exactly one
`payload-too-large-after-splits` placeholder leaf covering the job's time
range and performs no remote call (empty event trace). -/
theorem C4_depth_exhausted (env : Env) (path : String) (start_s end_s : ℚ)
    (depth max_depth payload_size_cap max_retries : ℕ)
    (hdepth : max_depth ≤ depth) (hsize : payload_size_cap < env.size path) :
    _recursive_split_and_transcribe env path start_s end_s depth max_depth
        payload_size_cap max_retries
      = .ok ([placeholderLeaf start_s end_s "payload-too-large-after-splits"], []) := by
  have hgas : max_depth - depth = 0 := Nat.sub_eq_zero_of_le hdepth
  rw [_recursive_split_and_transcribe, hgas, splitGo]
  rw [if_pos (Or.inr rfl), if_pos hsize]

theorem C4_witness :
    3 ≤ 3 ∧ 10 < envSplitOk.size "wd/seg000.mp3"
      ∧ _recursive_split_and_transcribe envSplitOk "wd/seg000.mp3" 0 30 3 3 10 0
          = .ok ([placeholderLeaf 0 30 "payload-too-large-after-splits"], []) :=
  ⟨le_refl 3, by decide,
    C4_depth_exhausted envSplitOk "wd/seg000.mp3" 0 30 3 3 10 0 (le_refl 3) (by decide)⟩

/-! ## Claim C5 -/

theorem transcribe_segment_loop_calls_one (remote : ℕ → RemoteOutcome)
    (segment_path : String) (index start_s end_s : ℚ) (a : ℕ) (le0 : Option String) :
    countCalls (transcribe_segment_loop remote segment_path index start_s end_s [a] le0).2
      = 1 := by
  rw [transcribe_segment_loop]
  cases remote a with
  | yields chunks =>
    dsimp only
    split
    · rfl
    · rfl
  | raises msg =>
    dsimp only
    split
    · rfl
    · rfl

/-- With `max_retries = 0` a `transcribe_segment` call performs exactly one
remote attempt, whatever the outcome. -/
theorem transcribe_segment_zero_retries_one_call (remote : ℕ → RemoteOutcome)
    (segment_path : String) (index start_s end_s : ℚ) (payload_size_cap : ℕ) :
    countCalls (transcribe_segment remote segment_path index start_s end_s 0
      payload_size_cap).2 = 1 := by
  rw [transcribe_segment]
  exact transcribe_segment_loop_calls_one remote segment_path index start_s end_s 1 none

/-- C5: when the job's file size is at or below `payload_size_cap`, the
splitter makes exactly one transcription attempt (a `transcribe_segment` call
with `max_retries = 0`, hence exactly one remote call); if that single
attempt reports `split_required`, the splitter returns one
`payload-error-persistent` placeholder leaf covering the job's time range —
no further splitting — and otherwise it returns that attempt's single result
leaf. -/
theorem C5_base_case_small (env : Env) (path : String) (start_s end_s : ℚ)
    (depth max_depth payload_size_cap max_retries : ℕ)
    (hsize : env.size path ≤ payload_size_cap) :
    _recursive_split_and_transcribe env path start_s end_s depth max_depth
        payload_size_cap max_retries
      = .ok ([if (transcribe_segment (env.remote path) path ((pyInt start_s : ℤ) : ℚ)
                  start_s end_s 0 payload_size_cap).1.split_required
              then placeholderLeaf start_s end_s "payload-error-persistent"
              else (transcribe_segment (env.remote path) path ((pyInt start_s : ℤ) : ℚ)
                  start_s end_s 0 payload_size_cap).1],
             (transcribe_segment (env.remote path) path ((pyInt start_s : ℤ) : ℚ)
                 start_s end_s 0 payload_size_cap).2)
      ∧ countCalls (transcribe_segment (env.remote path) path ((pyInt start_s : ℤ) : ℚ)
          start_s end_s 0 payload_size_cap).2 = 1 := by
  constructor
  · rw [_recursive_split_and_transcribe, splitGo.eq_def]
    dsimp only
    rw [if_pos (Or.inl hsize), if_neg (not_lt.mpr hsize)]
    by_cases h : (transcribe_segment (env.remote path) path ((pyInt start_s : ℤ) : ℚ)
        start_s end_s 0 payload_size_cap).1.split_required
    · rw [if_pos h, if_pos h]
    · rw [if_neg h, if_neg h]
  · exact transcribe_segment_zero_retries_one_call _ _ _ _ _ _

theorem C5_witness :
    envSplitOk.size "wd/seg000.mp3_partL.mp3" ≤ 10
      ∧ _recursive_split_and_transcribe envSplitOk "wd/seg000.mp3_partL.mp3" 0 15 1 4 10 0
          = .ok ([{ index := 0, start_s := 0, end_s := 15, text := some "L" }],
              [.remoteCall "wd/seg000.mp3_partL.mp3" 1]) :=
  ⟨by decide, by
    have h := (C5_base_case_small envSplitOk "wd/seg000.mp3_partL.mp3" 0 15 1 4 10 0
      (by decide)).1
    rw [h]
    with_unfolding_all decide⟩

/-! ## Claims C2 and C3: the retry loop -/

/-- A failed attempt, as classified by `transcribe_segment`: either the
remote interaction raises, or it yields chunks whose assembled text is empty
(the "empty transcription" case). -/
inductive FailKind
  | raiseMsg (msg : String)
  | emptyRes (chunks : List String)

/-- The remote outcome realizing a failed attempt. -/
def FailKind.outcome : FailKind → RemoteOutcome
  | .raiseMsg m => .raises m
  | .emptyRes cs => .yields cs

/-- The error text `transcribe_segment` records for a failed attempt. -/
def FailKind.errText : FailKind → String
  | .raiseMsg m => m
  | .emptyRes _ => "empty transcription"

/-- The attempt really is a failure that does not short-circuit into a split:
a raised error whose message does not match `PAYLOAD_ERR_RE`, or an empty
assembled transcription. -/
def FailKind.nonPayloadFail : FailKind → Prop
  | .raiseMsg m => payloadErrSearch m = false
  | .emptyRes cs => collectText cs = ""

/-- The trace of a run of consecutive attempts: one remote call per attempt,
with a backoff sleep of `attempt` seconds after every attempt except the
last one in the list. -/
def retrySchedule (path : String) : List ℕ → List Event
  | [] => []
  | [a] => [.remoteCall path a]
  | a :: b :: rest => .remoteCall path a :: .sleepSecs a :: retrySchedule path (b :: rest)

theorem countCalls_retrySchedule (path : String) :
    ∀ l : List ℕ, countCalls (retrySchedule path l) = l.length := by
  intro l
  induction l with
  | nil => rfl
  | cons a t ih =>
    cases t with
    | nil => rfl
    | cons b rest =>
      rw [retrySchedule]
      simpa [countCalls] using ih

/-- The sleeps of a retry run are `attempt` seconds after each non-final
attempt, in order. -/
theorem sleeps_retrySchedule (path : String) :
    ∀ l : List ℕ,
      (retrySchedule path l).filter
          (fun ev => match ev with | .sleepSecs _ => true | _ => false)
        = l.dropLast.map .sleepSecs := by
  intro l
  induction l with
  | nil => rfl
  | cons a t ih =>
    cases t with
    | nil => rfl
    | cons b rest =>
      rw [retrySchedule]
      simpa using ih

/-- If every attempt in the (nonempty) remaining list fails without a payload
match, the loop exhausts the list and returns the failure placeholder whose
reason is the last attempt's error text, with the full retry trace. -/
theorem transcribe_segment_loop_all_fail (remote : ℕ → RemoteOutcome)
    (segment_path : String) (index start_s end_s : ℚ) (fail : ℕ → FailKind) :
    ∀ (l : List ℕ) (last : ℕ) (le0 : Option String),
      l.getLast? = some last →
      (∀ a ∈ l, remote a = (fail a).outcome ∧ (fail a).nonPayloadFail) →
      transcribe_segment_loop remote segment_path index start_s end_s l le0
        = ({ index := index, start_s := start_s, end_s := end_s,
             text := some (placeholderText start_s end_s
               (orUnknown (some ((fail last).errText)))) },
           retrySchedule segment_path l) := by
  intro l
  induction l with
  | nil => intro last le0 h; simp at h
  | cons a t ih =>
    intro last le0 hlast hfail
    have ha := hfail a (List.mem_cons_self a t)
    cases t with
    | nil =>
      have hlast2 : a = last := by simpa using hlast
      subst hlast2
      rw [transcribe_segment_loop, ha.1]
      cases hk : fail a with
      | raiseMsg m =>
        rw [hk] at ha
        have hnp : payloadErrSearch m = false := ha.2
        dsimp only [FailKind.outcome]
        rw [if_neg (by simp [hnp])]
        rw [transcribe_segment_loop]
        simp [retrySchedule, FailKind.errText, hk]
      | emptyRes cs =>
        rw [hk] at ha
        have hnp : collectText cs = "" := ha.2
        dsimp only [FailKind.outcome]
        rw [if_neg (by simp [hnp])]
        rw [transcribe_segment_loop]
        simp [retrySchedule, FailKind.errText, hk]
    | cons b rest =>
      have hlast' : (b :: rest).getLast? = some last := by
        rwa [List.getLast?_cons_cons] at hlast
      have hfail' : ∀ x ∈ b :: rest, remote x = (fail x).outcome ∧ (fail x).nonPayloadFail :=
        fun x hx => hfail x (List.mem_cons_of_mem a hx)
      rw [transcribe_segment_loop, ha.1]
      cases hk : fail a with
      | raiseMsg m =>
        rw [hk] at ha
        have hnp : payloadErrSearch m = false := ha.2
        dsimp only [FailKind.outcome]
        rw [if_neg (by simp [hnp])]
        rw [ih last (some m) hlast' hfail']
        simp [retrySchedule]
      | emptyRes cs =>
        rw [hk] at ha
        have hnp : collectText cs = "" := ha.2
        dsimp only [FailKind.outcome]
        rw [if_neg (by simp [hnp])]
        rw [ih last (some "empty transcription") hlast' hfail']
        simp [retrySchedule]

theorem range_one_getLast (n : ℕ) : (List.range' 1 (n + 1)).getLast? = some (n + 1) := by
  rw [List.range'_concat]
  simp [Nat.add_comm]

/-- C2: a job whose every attempt fails with a non-payload failure (raised
non-payload error, or empty transcription) makes exactly `max_retries + 1`
remote attempts, sleeps `attempt` seconds after every attempt but the last
(1s, 2s, …), and returns the placeholder
`[Transcription failed - <start_ts> - <end_ts> Reason: <e>]` where the
timestamps are `HH:MM:SS` renderings of the job's time range and `<e>` is the
last attempt's error text (Python's `last_error or 'unknown'`). -/
theorem C2_retry_exhaustion (remote : ℕ → RemoteOutcome) (segment_path : String)
    (index start_s end_s : ℚ) (max_retries payload_size_cap : ℕ) (fail : ℕ → FailKind)
    (hfail : ∀ a, 1 ≤ a → a ≤ max_retries + 1 →
      remote a = (fail a).outcome ∧ (fail a).nonPayloadFail) :
    transcribe_segment remote segment_path index start_s end_s max_retries payload_size_cap
        = ({ index := index, start_s := start_s, end_s := end_s,
             text := some (placeholderText start_s end_s
               (orUnknown (some ((fail (max_retries + 1)).errText)))) },
           retrySchedule segment_path (List.range' 1 (max_retries + 1)))
      ∧ countCalls (retrySchedule segment_path (List.range' 1 (max_retries + 1)))
          = max_retries + 1
      ∧ (retrySchedule segment_path (List.range' 1 (max_retries + 1))).filter
            (fun ev => match ev with | .sleepSecs _ => true | _ => false)
          = (List.range' 1 max_retries).map .sleepSecs := by
  refine ⟨?_, ?_, ?_⟩
  · rw [transcribe_segment]
    apply transcribe_segment_loop_all_fail remote segment_path index start_s end_s fail
      (List.range' 1 (max_retries + 1)) (max_retries + 1) none (range_one_getLast max_retries)
    intro a hmem
    rw [List.mem_range'_1] at hmem
    exact hfail a hmem.1 (by omega)
  · rw [countCalls_retrySchedule]
    simp
  · rw [sleeps_retrySchedule]
    rw [List.range'_concat, List.dropLast_concat]

theorem C2_witness :
    (∀ a, 1 ≤ a → a ≤ 2 →
        (fun _ : ℕ => RemoteOutcome.raises "boom") a
            = ((fun _ : ℕ => FailKind.raiseMsg "boom") a).outcome
          ∧ ((fun _ : ℕ => FailKind.raiseMsg "boom") a).nonPayloadFail)
      ∧ transcribe_segment (fun _ => RemoteOutcome.raises "boom") "p" 0 0 30 1 10
          = ({ index := 0, start_s := 0, end_s := 30,
               text := some "[Transcription failed - 00:00:00 - 00:00:30 Reason: boom]" },
             [.remoteCall "p" 1, .sleepSecs 1, .remoteCall "p" 2]) := by
  have hf : ∀ a, 1 ≤ a → a ≤ 2 →
      (fun _ : ℕ => RemoteOutcome.raises "boom") a
          = ((fun _ : ℕ => FailKind.raiseMsg "boom") a).outcome
        ∧ ((fun _ : ℕ => FailKind.raiseMsg "boom") a).nonPayloadFail := by
    intro a _ _
    refine ⟨rfl, ?_⟩
    show payloadErrSearch "boom" = false
    decide
  refine ⟨hf, ?_⟩
  have h := (C2_retry_exhaustion (fun _ => RemoteOutcome.raises "boom") "p" 0 0 30 1 10
    (fun _ => FailKind.raiseMsg "boom") hf).1
  rw [h]
  with_unfolding_all decide

theorem retrySchedule_cons_of_ne_nil (path : String) (j : ℕ) (l : List ℕ) (h : l ≠ []) :
    retrySchedule path (j :: l)
      = .remoteCall path j :: .sleepSecs j :: retrySchedule path l := by
  cases l with
  | nil => exact absurd rfl h
  | cons b rest => rfl

/-- After a prefix of non-payload failures, an attempt whose raised message
matches `PAYLOAD_ERR_RE` makes the loop return the split signal immediately:
no further attempt, no placeholder, no sleep after the matching attempt. -/
theorem transcribe_segment_loop_payload (remote : ℕ → RemoteOutcome)
    (segment_path : String) (index start_s end_s : ℚ) (fail : ℕ → FailKind)
    (a : ℕ) (msg : String) (hmsg : remote a = .raises msg)
    (hmatch : payloadErrSearch msg = true) :
    ∀ (l1 : List ℕ) (rest : List ℕ) (le0 : Option String),
      (∀ j ∈ l1, remote j = (fail j).outcome ∧ (fail j).nonPayloadFail) →
      transcribe_segment_loop remote segment_path index start_s end_s (l1 ++ a :: rest) le0
        = ({ index := index, start_s := start_s, end_s := end_s,
             split_required := true, segment_path := some segment_path },
           retrySchedule segment_path (l1 ++ [a])) := by
  intro l1
  induction l1 with
  | nil =>
    intro rest le0 _
    rw [List.nil_append, transcribe_segment_loop, hmsg]
    dsimp only
    rw [if_pos hmatch]
    rfl
  | cons j t ih =>
    intro rest le0 hpre
    have hj := hpre j (List.mem_cons_self j t)
    rw [List.cons_append, transcribe_segment_loop, hj.1]
    have hne : t ++ a :: rest ≠ [] := by simp
    cases hk : fail j with
    | raiseMsg m =>
      rw [hk] at hj
      have hnp : payloadErrSearch m = false := hj.2
      dsimp only [FailKind.outcome]
      rw [if_neg (by simp [hnp])]
      rw [ih rest (some m) (fun x hx => hpre x (List.mem_cons_of_mem j hx))]
      rw [List.cons_append j t [a]]
      rw [retrySchedule_cons_of_ne_nil segment_path j (t ++ [a]) (by simp)]
      have hie : (t ++ a :: rest).isEmpty = false := by simp
      simp [hie]
    | emptyRes cs =>
      rw [hk] at hj
      have hnp : collectText cs = "" := hj.2
      dsimp only [FailKind.outcome]
      rw [if_neg (by simp [hnp])]
      rw [ih rest (some "empty transcription") (fun x hx => hpre x (List.mem_cons_of_mem j hx))]
      rw [List.cons_append j t [a]]
      rw [retrySchedule_cons_of_ne_nil segment_path j (t ++ [a]) (by simp)]
      have hie : (t ++ a :: rest).isEmpty = false := by simp
      simp [hie]

/-- C3: when attempt `a ≤ max_retries + 1` raises a message matching
`Payload length is <N>, exceeding max payload length of <M>` (after a prefix
of non-payload failures), `transcribe_segment` immediately returns the
split-required signal carrying the job's path and time range: exactly `a`
remote calls, no placeholder, and no sleep after the matching attempt. -/
theorem C3_payload_short_circuit (remote : ℕ → RemoteOutcome) (segment_path : String)
    (index start_s end_s : ℚ) (max_retries payload_size_cap : ℕ) (a : ℕ) (msg : String)
    (fail : ℕ → FailKind) (ha1 : 1 ≤ a) (ha2 : a ≤ max_retries + 1)
    (hpre : ∀ j, 1 ≤ j → j < a →
      remote j = (fail j).outcome ∧ (fail j).nonPayloadFail)
    (hmsg : remote a = .raises msg) (hmatch : payloadErrSearch msg = true) :
    transcribe_segment remote segment_path index start_s end_s max_retries payload_size_cap
        = ({ index := index, start_s := start_s, end_s := end_s,
             split_required := true, segment_path := some segment_path },
           retrySchedule segment_path (List.range' 1 a))
      ∧ countCalls (retrySchedule segment_path (List.range' 1 a)) = a := by
  constructor
  · rw [transcribe_segment]
    have hsplit : List.range' 1 (max_retries + 1)
        = List.range' 1 (a - 1) ++ a :: List.range' (a + 1) (max_retries + 1 - a) := by
      have h1 : List.range' 1 (a - 1) ++ List.range' a (max_retries + 2 - a)
          = List.range' 1 (max_retries + 1) := by
        have h := List.range'_append 1 (a - 1) (max_retries + 2 - a) 1
        simp only [one_mul] at h
        rw [show 1 + (a - 1) = a by omega,
          show max_retries + 2 - a + (a - 1) = max_retries + 1 by omega] at h
        exact h
      have h2 : List.range' a (max_retries + 2 - a)
          = a :: List.range' (a + 1) (max_retries + 1 - a) := by
        rw [show max_retries + 2 - a = (max_retries + 1 - a) + 1 by omega]
        rw [List.range'_succ]
      rw [← h1, h2]
    rw [hsplit]
    have hrange : List.range' 1 (a - 1) ++ [a] = List.range' 1 a := by
      have h := @List.range'_concat 1 1 (a - 1)
      rw [show a - 1 + 1 = a by omega] at h
      rw [h, show 1 + 1 * (a - 1) = a by omega]
    rw [← hrange]
    apply transcribe_segment_loop_payload remote segment_path index start_s end_s fail a msg
      hmsg hmatch
    intro j hj
    rw [List.mem_range'_1] at hj
    exact hpre j hj.1 (by omega)
  · rw [countCalls_retrySchedule]
    simp

theorem C3_witness :
    payloadErrSearch "Payload length is 50000, exceeding max payload length of 10000" = true
      ∧ transcribe_segment
            (fun _ => RemoteOutcome.raises
              "Payload length is 50000, exceeding max payload length of 10000")
            "p" 0 0 30 2 10
          = ({ index := 0, start_s := 0, end_s := 30, split_required := true,
               segment_path := some "p" },
             [.remoteCall "p" 1]) := by
  refine ⟨by decide, ?_⟩
  have h := (C3_payload_short_circuit
    (fun _ => RemoteOutcome.raises
      "Payload length is 50000, exceeding max payload length of 10000")
    "p" 0 0 30 2 10 1 "Payload length is 50000, exceeding max payload length of 10000"
    (fun _ => FailKind.raiseMsg "ignored") (le_refl 1) (by omega)
    (fun j hj1 hj2 => absurd (lt_of_le_of_lt hj1 hj2) (lt_irrefl 1))
    rfl (by decide)).1
  rw [h]
  rfl

/-! ## Claim C9: the concurrency bound -/

theorem countP_set_eq (p : TaskPhase → Bool) :
    ∀ (l : List TaskPhase) (i : ℕ) (x y : TaskPhase), l.get? i = some y →
      (l.set i x).countP p + (if p y then 1 else 0)
        = l.countP p + (if p x then 1 else 0) := by
  intro l
  induction l with
  | nil => intro i x y h; simp at h
  | cons a t ih =>
    intro i x y h
    cases i with
    | zero =>
      simp only [List.get?] at h
      obtain rfl : a = y := by injection h
      simp only [List.set]
      rw [List.countP_cons, List.countP_cons]
      by_cases hx : p x = true <;> by_cases ha : p a = true <;> simp [hx, ha] <;> omega
    | succ n =>
      simp only [List.get?] at h
      simp only [List.set]
      rw [List.countP_cons, List.countP_cons]
      have := ih n x y h
      by_cases ha : p a = true <;> simp [ha] <;> omega

/-- The semaphore invariant: permits held plus permits free is constantly
`max_concurrency`. -/
def schedInv (max_concurrency : ℕ) (st : SchedState) : Prop :=
  holders st + st.avail = max_concurrency

theorem schedInv_step {st st' : SchedState} (max_concurrency : ℕ)
    (hstep : SchedStep st st') (hinv : schedInv max_concurrency st) :
    schedInv max_concurrency st' := by
  cases hstep with
  | acquire i a h ha =>
    have hc := countP_set_eq isAcquired st.tasks i (.acquired false) .pending h
    simp [isAcquired] at hc
    simp [schedInv, holders] at hinv ⊢
    omega
  | beginCall i h =>
    have hc := countP_set_eq isAcquired st.tasks i (.acquired true) (.acquired false) h
    simp [isAcquired] at hc
    simp [schedInv, holders] at hinv ⊢
    omega
  | endCall i h =>
    have hc := countP_set_eq isAcquired st.tasks i (.acquired false) (.acquired true) h
    simp [isAcquired] at hc
    simp [schedInv, holders] at hinv ⊢
    omega
  | release i h =>
    have hc := countP_set_eq isAcquired st.tasks i .done (.acquired false) h
    simp [isAcquired] at hc
    simp [schedInv, holders] at hinv ⊢
    omega

theorem schedInv_reach (max_concurrency k : ℕ) :
    ∀ st, SchedReach (initSched max_concurrency k) st → schedInv max_concurrency st := by
  intro st hreach
  induction hreach with
  | refl =>
    unfold schedInv holders initSched
    simp only
    have : (List.replicate k TaskPhase.pending).countP isAcquired = 0 := by
      induction k with
      | zero => rfl
      | succ n ihn => simpa [List.replicate, List.countP_cons, isAcquired] using ihn
    omega
  | tail _ hstep ih => exact schedInv_step max_concurrency hstep ih

theorem countP_inCall_le_acquired :
    ∀ l : List TaskPhase, l.countP isInCall ≤ l.countP isAcquired := by
  intro l
  induction l with
  | nil => exact le_refl 0
  | cons a t ih =>
    rw [List.countP_cons, List.countP_cons]
    have : (if isInCall a = true then 1 else 0) ≤ (if isAcquired a = true then 1 else 0) := by
      cases a with
      | pending => simp [isInCall, isAcquired]
      | acquired b => cases b <;> simp [isInCall, isAcquired]
      | done => simp [isInCall, isAcquired]
    omega

/-- C9: under the counting-semaphore gate of `transcribe_file` (modelled by
the `SchedStep` system), every reachable scheduler state has at most
`max_concurrency` simultaneously in-flight remote transcription calls, for
any `max_concurrency = N ≥ 1` and any number of top-level jobs.  (The
splitting sub-trees run in the sequential post-`gather` loop of the
embedding — one awaited call at a time — so they add no concurrency beyond
this bound.) -/
theorem C9_concurrency_bound (max_concurrency k : ℕ) (hN : 1 ≤ max_concurrency)
    (st : SchedState) (hreach : SchedReach (initSched max_concurrency k) st) :
    inFlight st ≤ max_concurrency := by
  have hinv := schedInv_reach max_concurrency k st hreach
  have hle := countP_inCall_le_acquired st.tasks
  unfold schedInv holders at hinv
  unfold inFlight
  omega

theorem C9_witness :
    1 ≤ 2 ∧ inFlight (initSched 2 3) ≤ 2 :=
  ⟨by decide, C9_concurrency_bound 2 3 (by decide) (initSched 2 3) SchedReach.refl⟩

/-! ## Claim C6: the recursive split step -/

/-- The duration used for bisection:
`_probe_duration(path) or (end_s - start_s) or 1.0`. -/
def probedDur (env : Env) (path : String) (start_s end_s : ℚ) : ℚ :=
  let dur0 := env.probe path
  if dur0 ≠ 0 then dur0 else if end_s - start_s ≠ 0 then end_s - start_s else 1

/-- `half = dur / 2.0`. -/
def halfDur (env : Env) (path : String) (start_s end_s : ℚ) : ℚ :=
  probedDur env path start_s end_s / 2

/-- C6: in the recursive case (oversized file, depth budget available,
both `_encode_slice` calls succeed) the splitter recurses at `depth + 1` on
the left half over `[start_s, start_s + half)` and the right half over
`[start_s + half, end_s)` and returns the left leaves followed by the right
leaves (chronological order); and, concretely, a segment whose two encoded
halves fall under the size cap and transcribe successfully yields exactly two
non-placeholder leaves whose texts appear left-before-right in the final
transcript. -/
theorem C6_split_ordering :
    (∀ (env : Env) (path : String) (s e : ℚ) (depth md cap mr : ℕ),
      cap < env.size path → depth < md →
      env.encodeErr path (path ++ "_partL.mp3") 0 (halfDur env path s e) = none →
      env.encodeErr path (path ++ "_partR.mp3") (halfDur env path s e)
          (probedDur env path s e - halfDur env path s e) = none →
      _recursive_split_and_transcribe env path s e depth md cap mr
        = (match _recursive_split_and_transcribe env (path ++ "_partL.mp3") s
              (s + halfDur env path s e) (depth + 1) md cap mr with
           | .error m => .error m
           | .ok (lres, ltr) =>
             match _recursive_split_and_transcribe env (path ++ "_partR.mp3")
                 (s + halfDur env path s e) e (depth + 1) md cap mr with
             | .error m => .error m
             | .ok (rres, rtr) => .ok (lres ++ rres, ltr ++ rtr)))
      ∧ transcribe_file envSplitOk "wd" 30 1 0 10 4 = .ok ("L\n\nR", ["seg000.mp3"])
      ∧ expandResults envSplitOk 4 10 0
            (runJobs envSplitOk "wd" 0 10 0 (jobsOf envSplitOk "wd" 30))
          = .ok [{ index := 0, start_s := 0, end_s := 15, text := some "L" },
                 { index := 15, start_s := 15, end_s := 30, text := some "R" }] := by
  refine ⟨?_, ?_, ?_⟩
  · intro env path s e depth md cap mr hsize hdepth hEl hEr
    obtain ⟨g, hg⟩ : ∃ g, md - depth = g + 1 := ⟨md - depth - 1, by omega⟩
    have hg' : md - (depth + 1) = g := by omega
    simp only [_recursive_split_and_transcribe]
    rw [hg, hg', splitGo.eq_def]
    dsimp only
    rw [if_neg (by push_neg; exact ⟨hsize, by omega⟩)]
    simp only [halfDur, probedDur] at hEl hEr
    rw [hEl, hEr]
    simp only [halfDur, probedDur]
  · with_unfolding_all decide
  · with_unfolding_all decide

theorem C6_witness :
    10 < envSplitOk.size "wd/seg000.mp3" ∧ (0 : ℕ) < 4
      ∧ envSplitOk.encodeErr "wd/seg000.mp3" "wd/seg000.mp3_partL.mp3" 0
          (halfDur envSplitOk "wd/seg000.mp3" 0 30) = none
      ∧ _recursive_split_and_transcribe envSplitOk "wd/seg000.mp3" 0 30 0 4 10 0
          = (match _recursive_split_and_transcribe envSplitOk "wd/seg000.mp3_partL.mp3" 0
                (0 + halfDur envSplitOk "wd/seg000.mp3" 0 30) 1 4 10 0 with
             | .error m => .error m
             | .ok (lres, ltr) =>
               match _recursive_split_and_transcribe envSplitOk "wd/seg000.mp3_partR.mp3"
                   (0 + halfDur envSplitOk "wd/seg000.mp3" 0 30) 30 1 4 10 0 with
               | .error m => .error m
               | .ok (rres, rtr) => .ok (lres ++ rres, ltr ++ rtr)) := by
  refine ⟨by decide, by decide, by with_unfolding_all decide, ?_⟩
  exact C6_split_ordering.1 envSplitOk "wd/seg000.mp3" 0 30 0 4 10 0 (by decide) (by decide)
    (by with_unfolding_all decide) (by with_unfolding_all decide)

/-! ## Claim C7: final assembly and ordering -/

theorem resLe_total (x y : SegResult) : resLe x y = true ∨ resLe y x = true := by
  simp only [resLe, decide_eq_true_eq]
  exact le_total x.start_s y.start_s

theorem resLe_trans (x y z : SegResult) (h1 : resLe x y = true) (h2 : resLe y z = true) :
    resLe x z = true := by
  simp only [resLe, decide_eq_true_eq] at h1 h2 ⊢
  exact le_trans h1 h2

theorem filter_stableInsert_key (a : SegResult) (q : ℚ) :
    ∀ l : List SegResult,
      (stableInsert resLe a l).filter (fun r => decide (r.start_s = q))
        = (if a.start_s = q then [a] else [])
            ++ l.filter (fun r => decide (r.start_s = q)) := by
  intro l
  induction l with
  | nil => by_cases h : a.start_s = q <;> simp [stableInsert, h]
  | cons b t ih =>
    by_cases hle : resLe a b = true
    · simp only [stableInsert, hle, if_true]
      by_cases h : a.start_s = q <;> by_cases hb : b.start_s = q <;> simp [h, hb]
    · simp only [stableInsert, hle]
      rw [if_neg (by simp [hle])]
      rw [List.filter_cons, List.filter_cons]
      by_cases hb : b.start_s = q
      · have hba : b.start_s < a.start_s := by
          have h' := hle
          simp only [resLe, decide_eq_true_eq] at h'
          exact lt_of_not_le h'
        have ha : ¬ a.start_s = q := by
          intro hq
          rw [hq, ← hb] at hba
          exact lt_irrefl _ hba
        rw [ih]
        simp [ha, hb]
      · rw [ih]
        simp [hb]

theorem sortResults_filter_key (q : ℚ) :
    ∀ l : List SegResult,
      (sortResults l).filter (fun r => decide (r.start_s = q))
        = l.filter (fun r => decide (r.start_s = q)) := by
  intro l
  induction l with
  | nil => rfl
  | cons a t ih =>
    show (stableInsert resLe a (stableSort resLe t)).filter _ = _
    rw [filter_stableInsert_key]
    rw [show stableSort resLe t = sortResults t from rfl, ih]
    rw [List.filter_cons]
    by_cases h : a.start_s = q <;> simp [h]

theorem sorted_perm_nodupkeys_eq :
    ∀ l1 l2 : List SegResult, l1.Perm l2 →
      l1.Pairwise (fun a b => a.start_s ≤ b.start_s) →
      l2.Pairwise (fun a b => a.start_s ≤ b.start_s) →
      l1.Pairwise (fun a b => a.start_s ≠ b.start_s) →
      l1 = l2 := by
  intro l1
  induction l1 with
  | nil =>
    intro l2 hp _ _ _
    exact (hp.symm.eq_nil).symm
  | cons a t1 ih =>
    intro l2 hp hs1 hs2 hd
    cases l2 with
    | nil => exact hp.eq_nil
    | cons b t2 =>
      by_cases hab : a = b
      · subst hab
        have ht := ih t2 hp.cons_inv (List.pairwise_cons.mp hs1).2
          (List.pairwise_cons.mp hs2).2 (List.pairwise_cons.mp hd).2
        rw [ht]
      · exfalso
        have hamem : a ∈ t2 := by
          have : a ∈ b :: t2 := hp.mem_iff.mp (List.mem_cons_self a t1)
          exact (List.mem_cons.mp this).resolve_left hab
        have hbmem : b ∈ t1 := by
          have : b ∈ a :: t1 := hp.mem_iff.mpr (List.mem_cons_self b t2)
          exact (List.mem_cons.mp this).resolve_left (fun h => hab h.symm)
        have h1 : a.start_s ≤ b.start_s := (List.pairwise_cons.mp hs1).1 b hbmem
        have h2 : b.start_s ≤ a.start_s := (List.pairwise_cons.mp hs2).1 a hamem
        exact (List.pairwise_cons.mp hd).1 b hbmem (le_antisymm h1 h2)

/-- C7: given the expanded leaf list, `transcribe_file` returns the texts of
the start-sorted leaves joined by the blank-line separator `"\n\n"` together
with the segment list; the sort is by ascending `start_s`, is a permutation
of the emitted leaves, is stable (results with equal `start_s` keep their
emission order), and — when all start offsets are distinct — yields the same
sorted list for every permutation of the leaves, i.e. the final order is
independent of completion order. -/
theorem C7_sorted_assembly (env : Env) (work_dir : String)
    (seg_seconds max_concurrency max_segment_retries max_payload_size max_split_depth : ℕ)
    (exp : List SegResult)
    (hexp : expandResults env max_split_depth max_payload_size max_segment_retries
        (runJobs env work_dir max_segment_retries max_payload_size 0
          (jobsOf env work_dir seg_seconds)) = .ok exp) :
    transcribe_file env work_dir seg_seconds max_concurrency max_segment_retries
        max_payload_size max_split_depth
      = .ok (String.intercalate "\n\n" ((sortResults exp).map (fun r => r.text.getD "")),
          segmentsOf env)
    ∧ (sortResults exp).Pairwise (fun a b => a.start_s ≤ b.start_s)
    ∧ (sortResults exp).Perm exp
    ∧ (∀ q : ℚ, (sortResults exp).filter (fun r => decide (r.start_s = q))
        = exp.filter (fun r => decide (r.start_s = q)))
    ∧ (∀ l' : List SegResult, l'.Perm exp →
        exp.Pairwise (fun a b => a.start_s ≠ b.start_s) → sortResults l' = sortResults exp) := by
  have hsorted : ∀ l : List SegResult,
      (sortResults l).Pairwise (fun a b => a.start_s ≤ b.start_s) := by
    intro l
    have h := pairwise_stableSort resLe resLe_total resLe_trans l
    exact h.imp (fun hxy => by simpa [resLe, decide_eq_true_eq] using hxy)
  refine ⟨?_, hsorted exp, stableSort_perm resLe exp, fun q => sortResults_filter_key q exp, ?_⟩
  · by_cases hseg : (segmentsOf env).isEmpty = true
    · have hnil : segmentsOf env = [] := List.isEmpty_iff.mp hseg
      have hexp0 : exp = [] := by
        rw [jobsOf, hnil] at hexp
        simp only [List.map_nil, List.zip_nil_left, runJobs, expandResults] at hexp
        exact (Except.ok.injEq _ _).mp hexp.symm
      rw [transcribe_file]
      simp only [hseg, if_true]
      rw [hexp0, hnil]
      rfl
    · rw [transcribe_file]
      simp only [hseg, if_false]
      rw [hexp]
      rfl
  · intro l' hperm hnd
    apply sorted_perm_nodupkeys_eq
    · exact ((stableSort_perm resLe l').trans hperm).trans (stableSort_perm resLe exp).symm
    · exact hsorted l'
    · exact hsorted exp
    · exact (((stableSort_perm resLe l').trans hperm).pairwise_iff
        (fun h => Ne.symm h)).mpr hnd

theorem C7_witness :
    expandResults envSplitOk 4 10 0
        (runJobs envSplitOk "wd" 0 10 0 (jobsOf envSplitOk "wd" 30))
      = .ok [{ index := 0, start_s := 0, end_s := 15, text := some "L" },
             { index := 15, start_s := 15, end_s := 30, text := some "R" }]
    ∧ (sortResults [{ index := 0, start_s := 0, end_s := 15, text := some "L" },
        { index := 15, start_s := 15, end_s := 30, text := some "R" }]).Pairwise
          (fun a b => a.start_s ≤ b.start_s) := by
  have hexp : expandResults envSplitOk 4 10 0
      (runJobs envSplitOk "wd" 0 10 0 (jobsOf envSplitOk "wd" 30))
    = .ok [{ index := 0, start_s := 0, end_s := 15, text := some "L" },
           { index := 15, start_s := 15, end_s := 30, text := some "R" }] := by
    with_unfolding_all decide
  exact ⟨hexp, (C7_sorted_assembly envSplitOk "wd" 30 1 0 10 4 _ hexp).2.1⟩

/-! ## Claim C8: leaf ranges -/

theorem transcribe_segment_loop_range (remote : ℕ → RemoteOutcome) (segment_path : String)
    (index start_s end_s : ℚ) :
    ∀ (l : List ℕ) (le0 : Option String),
      (transcribe_segment_loop remote segment_path index start_s end_s l le0).1.start_s = start_s
      ∧ (transcribe_segment_loop remote segment_path index start_s end_s l le0).1.end_s
          = end_s := by
  intro l
  induction l with
  | nil => intro le0; exact ⟨rfl, rfl⟩
  | cons a t ih =>
    intro le0
    rw [transcribe_segment_loop]
    cases remote a with
    | yields chunks =>
      dsimp only
      split
      · exact ⟨rfl, rfl⟩
      · exact ih (some "empty transcription")
    | raises msg =>
      dsimp only
      split
      · exact ⟨rfl, rfl⟩
      · exact ih (some msg)

theorem transcribe_segment_range (remote : ℕ → RemoteOutcome) (segment_path : String)
    (index start_s end_s : ℚ) (max_retries payload_size_cap : ℕ) :
    (transcribe_segment remote segment_path index start_s end_s max_retries
        payload_size_cap).1.start_s = start_s
    ∧ (transcribe_segment remote segment_path index start_s end_s max_retries
        payload_size_cap).1.end_s = end_s := by
  rw [transcribe_segment]
  exact transcribe_segment_loop_range remote segment_path index start_s end_s _ none

/-- Leaves chain consecutively from `s` to `e`: the first leaf starts at `s`,
each leaf ends where the next starts, and the last leaf ends at `e`. -/
def chainLeaves : ℚ → ℚ → List SegResult → Prop
  | _, _, [] => False
  | s, e, [l] => l.start_s = s ∧ l.end_s = e
  | s, e, l :: l2 :: rest => l.start_s = s ∧ chainLeaves l.end_s e (l2 :: rest)

theorem chainLeaves_append :
    ∀ (l1 l2 : List SegResult) (s m e : ℚ),
      chainLeaves s m l1 → chainLeaves m e l2 → chainLeaves s e (l1 ++ l2) := by
  intro l1
  induction l1 with
  | nil => intro l2 s m e h1 _; exact absurd h1 (by simp [chainLeaves])
  | cons x t ih =>
    intro l2 s m e h1 h2
    cases t with
    | nil =>
      rcases h1 with ⟨hs, hm⟩
      cases l2 with
      | nil => exact absurd h2 (by simp [chainLeaves])
      | cons y r =>
        show chainLeaves s e (x :: y :: r)
        rw [chainLeaves]
        exact ⟨hs, by rw [hm]; exact h2⟩
    | cons x2 t2 =>
      rcases h1 with ⟨hs, hrest⟩
      have hres := ih l2 x.end_s m e hrest h2
      rw [List.cons_append] at hres
      show x.start_s = s ∧ chainLeaves x.end_s e (x2 :: (t2 ++ l2))
      exact ⟨hs, hres⟩

theorem chainLeaves_lb :
    ∀ (l : List SegResult) (s e : ℚ), chainLeaves s e l →
      (∀ x ∈ l, x.start_s < x.end_s) → ∀ y ∈ l, s ≤ y.start_s := by
  intro l
  induction l with
  | nil => intro s e h _; exact absurd h (by simp [chainLeaves])
  | cons x t ih =>
    intro s e h hpos y hy
    rcases List.mem_cons.mp hy with rfl | hyt
    · cases t with
      | nil => exact le_of_eq h.1.symm
      | cons b r => exact le_of_eq h.1.symm
    · cases t with
      | nil => simp at hyt
      | cons b r =>
        rcases h with ⟨hs, hrest⟩
        have hxe : x.start_s < x.end_s := hpos x (List.mem_cons_self x _)
        have := ih x.end_s e hrest (fun z hz => hpos z (List.mem_cons_of_mem x hz)) y hyt
        calc s = x.start_s := hs.symm
          _ ≤ x.end_s := le_of_lt hxe
          _ ≤ y.start_s := this

theorem chainLeaves_pairwise :
    ∀ (l : List SegResult) (s e : ℚ), chainLeaves s e l →
      (∀ x ∈ l, x.start_s < x.end_s) →
      l.Pairwise (fun a b => a.end_s ≤ b.start_s) := by
  intro l
  induction l with
  | nil => intro s e h _; exact absurd h (by simp [chainLeaves])
  | cons x t ih =>
    intro s e h hpos
    cases t with
    | nil => simp
    | cons b r =>
      rcases h with ⟨_, hrest⟩
      refine List.pairwise_cons.mpr ⟨?_, ?_⟩
      · intro y hy
        exact chainLeaves_lb (b :: r) x.end_s e hrest
          (fun z hz => hpos z (List.mem_cons_of_mem x hz)) y hy
      · exact ih x.end_s e hrest (fun z hz => hpos z (List.mem_cons_of_mem x hz))

theorem splitGo_chain (env : Env) (payload_size_cap max_retries : ℕ)
    (hprobe : ∀ p, env.probe p = 0) :
    ∀ (gas : ℕ) (path : String) (s e : ℚ), s < e →
      ∀ (leaves : List SegResult) (tr : List Event),
        splitGo env payload_size_cap max_retries gas path s e = .ok (leaves, tr) →
        chainLeaves s e leaves ∧ ∀ l ∈ leaves, l.start_s < l.end_s := by
  intro gas
  induction gas with
  | zero =>
    intro path s e hse leaves tr hok
    rw [splitGo.eq_def] at hok
    dsimp only at hok
    rw [if_pos (Or.inr rfl)] at hok
    by_cases hbig : env.size path > payload_size_cap
    · rw [if_pos hbig] at hok
      obtain ⟨h1, _⟩ := Prod.mk.injEq _ _ _ _ ▸ (Except.ok.injEq _ _).mp hok
      subst h1
      refine ⟨⟨rfl, rfl⟩, ?_⟩
      intro l hl
      rcases List.mem_singleton.mp hl with rfl
      exact hse
    · rw [if_neg hbig] at hok
      by_cases hsp : (transcribe_segment (env.remote path) path ((pyInt s : ℤ) : ℚ)
          s e 0 payload_size_cap).1.split_required = true
      · rw [if_pos hsp] at hok
        obtain ⟨h1, _⟩ := Prod.mk.injEq _ _ _ _ ▸ (Except.ok.injEq _ _).mp hok
        subst h1
        refine ⟨⟨rfl, rfl⟩, ?_⟩
        intro l hl
        rcases List.mem_singleton.mp hl with rfl
        exact hse
      · rw [if_neg hsp] at hok
        obtain ⟨h1, _⟩ := Prod.mk.injEq _ _ _ _ ▸ (Except.ok.injEq _ _).mp hok
        subst h1
        have hr := transcribe_segment_range (env.remote path) path ((pyInt s : ℤ) : ℚ)
          s e 0 payload_size_cap
        refine ⟨⟨hr.1, hr.2⟩, ?_⟩
        intro l hl
        rcases List.mem_singleton.mp hl with rfl
        rw [hr.1, hr.2]
        exact hse
  | succ g ih =>
    intro path s e hse leaves tr hok
    rw [splitGo.eq_def] at hok
    dsimp only at hok
    by_cases hsz : env.size path ≤ payload_size_cap
    · rw [if_pos (Or.inl hsz)] at hok
      rw [if_neg (not_lt.mpr hsz)] at hok
      by_cases hsp : (transcribe_segment (env.remote path) path ((pyInt s : ℤ) : ℚ)
          s e 0 payload_size_cap).1.split_required = true
      · rw [if_pos hsp] at hok
        obtain ⟨h1, _⟩ := Prod.mk.injEq _ _ _ _ ▸ (Except.ok.injEq _ _).mp hok
        subst h1
        refine ⟨⟨rfl, rfl⟩, ?_⟩
        intro l hl
        rcases List.mem_singleton.mp hl with rfl
        exact hse
      · rw [if_neg hsp] at hok
        obtain ⟨h1, _⟩ := Prod.mk.injEq _ _ _ _ ▸ (Except.ok.injEq _ _).mp hok
        subst h1
        have hr := transcribe_segment_range (env.remote path) path ((pyInt s : ℤ) : ℚ)
          s e 0 payload_size_cap
        refine ⟨⟨hr.1, hr.2⟩, ?_⟩
        intro l hl
        rcases List.mem_singleton.mp hl with rfl
        rw [hr.1, hr.2]
        exact hse
    · rw [if_neg (by push_neg; exact ⟨not_le.mp hsz, by omega⟩)] at hok
      rw [hprobe path] at hok
      have hne : e - s ≠ 0 := sub_ne_zero.mpr (ne_of_gt hse)
      rw [if_neg (by simp)] at hok
      rw [if_pos hne] at hok
      cases hEl : env.encodeErr path (path ++ "_partL.mp3") 0 ((e - s) / 2) with
      | some m => rw [hEl] at hok; exact absurd hok (by simp)
      | none =>
        rw [hEl] at hok
        cases hEr : env.encodeErr path (path ++ "_partR.mp3") ((e - s) / 2)
            (e - s - (e - s) / 2) with
        | some m => rw [hEr] at hok; exact absurd hok (by simp)
        | none =>
          rw [hEr] at hok
          cases hL : splitGo env payload_size_cap max_retries g (path ++ "_partL.mp3") s
              (s + (e - s) / 2) with
          | error m => rw [hL] at hok; exact absurd hok (by simp)
          | ok pL =>
            rw [hL] at hok
            obtain ⟨l1, t1⟩ := pL
            cases hR : splitGo env payload_size_cap max_retries g (path ++ "_partR.mp3")
                (s + (e - s) / 2) e with
            | error m => rw [hR] at hok; exact absurd hok (by simp)
            | ok pR =>
              rw [hR] at hok
              obtain ⟨l2, t2⟩ := pR
              have hinj := (Except.ok.injEq _ _).mp hok
              have hleq : l1 ++ l2 = leaves := congrArg Prod.fst hinj
              have hmid1 : s < s + (e - s) / 2 := by linarith
              have hmid2 : s + (e - s) / 2 < e := by linarith
              have hLc := ih (path ++ "_partL.mp3") s (s + (e - s) / 2) hmid1 l1 t1 hL
              have hRc := ih (path ++ "_partR.mp3") (s + (e - s) / 2) e hmid2 l2 t2 hR
              subst hleq
              refine ⟨chainLeaves_append l1 l2 s _ e hLc.1 hRc.1, ?_⟩
              intro l hl
              rcases List.mem_append.mp hl with h | h
              · exact hLc.2 l h
              · exact hRc.2 l h

/-- C8 (amended): when the probed duration never overrides the fallback (the
prober fails, returning 0, so `half` is computed from `end_s - start_s`) and
the node's range is nonempty, every leaf of the recursive splitter satisfies
`end_s > start_s`, the leaves chain consecutively across `[start_s, end_s)`,
and their ranges are pairwise disjoint (each leaf ends no later than every
later leaf starts). -/
theorem C8_disjoint_leaves (env : Env) (hprobe : ∀ p, env.probe p = 0)
    (path : String) (start_s end_s : ℚ) (hse : start_s < end_s)
    (depth max_depth payload_size_cap max_retries : ℕ)
    (leaves : List SegResult) (tr : List Event)
    (hok : _recursive_split_and_transcribe env path start_s end_s depth max_depth
        payload_size_cap max_retries = .ok (leaves, tr)) :
    chainLeaves start_s end_s leaves
    ∧ (∀ l ∈ leaves, l.start_s < l.end_s)
    ∧ leaves.Pairwise (fun a b => a.end_s ≤ b.start_s) := by
  rw [_recursive_split_and_transcribe] at hok
  have h := splitGo_chain env payload_size_cap max_retries hprobe (max_depth - depth)
    path start_s end_s hse leaves tr hok
  exact ⟨h.1, h.2, chainLeaves_pairwise leaves start_s end_s h.1 h.2⟩

/-- C8 counterexample: with a probed duration (10) that differs from
`end - start` (1), the right sibling is assigned the range `[5, 1)` and its
successfully transcribed (non-placeholder) leaf has `end_s < start_s`,
refuting `endOffset > startOffset` and the disjoint-subinterval reading. -/
theorem C8_counterexample :
    _recursive_split_and_transcribe envProbeSkew "a.mp3" 0 1 0 1 10 0
      = .ok ([{ index := 0, start_s := 0, end_s := 5, text := some "L" },
              { index := 5, start_s := 5, end_s := 1, text := some "R" }],
          [.remoteCall "a.mp3_partL.mp3" 1, .remoteCall "a.mp3_partR.mp3" 1])
    ∧ (1 : ℚ) < 5 := by
  constructor
  · with_unfolding_all decide
  · with_unfolding_all decide

theorem C8_witness :
    (∀ p, envSplitOk.probe p = 0) ∧ (0 : ℚ) < 30
    ∧ chainLeaves 0 30
        [{ index := 0, start_s := 0, end_s := 15, text := some "L" },
         { index := 15, start_s := 15, end_s := 30, text := some "R" }] := by
  have hprobe : ∀ p, envSplitOk.probe p = 0 := fun p => rfl
  have hok : _recursive_split_and_transcribe envSplitOk "wd/seg000.mp3" 0 30 0 4 10 0
      = .ok ([{ index := 0, start_s := 0, end_s := 15, text := some "L" },
              { index := 15, start_s := 15, end_s := 30, text := some "R" }],
          [.remoteCall "wd/seg000.mp3_partL.mp3" 1, .remoteCall "wd/seg000.mp3_partR.mp3" 1]) := by
    with_unfolding_all decide
  refine ⟨hprobe, by norm_num, ?_⟩
  exact (C8_disjoint_leaves envSplitOk hprobe "wd/seg000.mp3" 0 30 (by norm_num) 0 4 10 0
    _ _ hok).1

/-! ## Claim C1: every job resolves to a leaf unless the encoder raises -/

theorem transcribe_segment_loop_text (remote : ℕ → RemoteOutcome) (segment_path : String)
    (index start_s end_s : ℚ) :
    ∀ (l : List ℕ) (le0 : Option String),
      (transcribe_segment_loop remote segment_path index start_s end_s l le0).1.split_required
          = false →
      ((transcribe_segment_loop remote segment_path index start_s end_s l le0).1.text).isSome
        = true := by
  intro l
  induction l with
  | nil => intro le0 _; rfl
  | cons a t ih =>
    intro le0
    rw [transcribe_segment_loop]
    cases remote a with
    | yields chunks =>
      dsimp only
      split
      · intro _; rfl
      · exact ih (some "empty transcription")
    | raises msg =>
      dsimp only
      split
      · intro h; exact absurd h (by simp)
      · exact ih (some msg)

theorem transcribe_segment_text (remote : ℕ → RemoteOutcome) (segment_path : String)
    (index start_s end_s : ℚ) (max_retries payload_size_cap : ℕ) :
    (transcribe_segment remote segment_path index start_s end_s max_retries
        payload_size_cap).1.split_required = false →
    ((transcribe_segment remote segment_path index start_s end_s max_retries
        payload_size_cap).1.text).isSome = true := by
  rw [transcribe_segment]
  exact transcribe_segment_loop_text remote segment_path index start_s end_s _ none

theorem splitGo_ok (env : Env) (payload_size_cap max_retries : ℕ)
    (hEnc : ∀ a b c d, env.encodeErr a b c d = none) :
    ∀ (gas : ℕ) (path : String) (s e : ℚ),
      ∃ (l0 : SegResult) (rest : List SegResult) (tr : List Event),
        splitGo env payload_size_cap max_retries gas path s e = .ok (l0 :: rest, tr)
        ∧ l0.start_s = s
        ∧ ∀ l ∈ l0 :: rest, l.text.isSome = true := by
  have hbase : ∀ (path : String) (s e : ℚ),
      ∃ (l0 : SegResult) (tr : List Event),
        (if (transcribe_segment (env.remote path) path ((pyInt s : ℤ) : ℚ)
              s e 0 payload_size_cap).1.split_required = true then
          Except.ok ([placeholderLeaf s e "payload-error-persistent"],
            (transcribe_segment (env.remote path) path ((pyInt s : ℤ) : ℚ)
              s e 0 payload_size_cap).2)
        else Except.ok ([(transcribe_segment (env.remote path) path ((pyInt s : ℤ) : ℚ)
              s e 0 payload_size_cap).1],
            (transcribe_segment (env.remote path) path ((pyInt s : ℤ) : ℚ)
              s e 0 payload_size_cap).2))
          = (.ok ([l0], tr) : Except String (List SegResult × List Event))
        ∧ l0.start_s = s ∧ l0.text.isSome = true := by
    intro path s e
    by_cases hsp : (transcribe_segment (env.remote path) path ((pyInt s : ℤ) : ℚ)
        s e 0 payload_size_cap).1.split_required = true
    · exact ⟨placeholderLeaf s e "payload-error-persistent", _, by rw [if_pos hsp], rfl, rfl⟩
    · refine ⟨_, _, by rw [if_neg hsp], ?_, ?_⟩
      · exact (transcribe_segment_range (env.remote path) path _ s e 0 payload_size_cap).1
      · exact transcribe_segment_text (env.remote path) path _ s e 0 payload_size_cap
          (Bool.not_eq_true _ ▸ hsp)
  intro gas
  induction gas with
  | zero =>
    intro path s e
    rw [splitGo.eq_def]
    dsimp only
    rw [if_pos (Or.inr rfl)]
    by_cases hbig : env.size path > payload_size_cap
    · rw [if_pos hbig]
      refine ⟨placeholderLeaf s e "payload-too-large-after-splits", [], [], rfl, rfl, ?_⟩
      intro l hl
      rcases List.mem_singleton.mp hl with rfl
      rfl
    · rw [if_neg hbig]
      obtain ⟨l0, tr, heq, hs0, ht0⟩ := hbase path s e
      refine ⟨l0, [], tr, heq, hs0, ?_⟩
      intro l hl
      rcases List.mem_singleton.mp hl with rfl
      exact ht0
  | succ g ih =>
    intro path s e
    rw [splitGo.eq_def]
    dsimp only
    by_cases hsz : env.size path ≤ payload_size_cap
    · rw [if_pos (Or.inl hsz)]
      rw [if_neg (not_lt.mpr hsz)]
      obtain ⟨l0, tr, heq, hs0, ht0⟩ := hbase path s e
      refine ⟨l0, [], tr, heq, hs0, ?_⟩
      intro l hl
      rcases List.mem_singleton.mp hl with rfl
      exact ht0
    · rw [if_neg (by push_neg; exact ⟨not_le.mp hsz, by omega⟩)]
      rw [hEnc path (path ++ "_partL.mp3") 0 _]
      rw [hEnc path (path ++ "_partR.mp3") _ _]
      obtain ⟨l0L, restL, trL, hL, hsL, htL⟩ := ih (path ++ "_partL.mp3") s _
      obtain ⟨l0R, restR, trR, hR, hsR, htR⟩ := ih (path ++ "_partR.mp3") _ e
      rw [hL, hR]
      refine ⟨l0L, restL ++ l0R :: restR, trL ++ trR, rfl, hsL, ?_⟩
      intro l hl
      rcases List.mem_cons.mp hl with rfl | hl
      · exact htL l (List.mem_cons_self _ _)
      · rcases List.mem_append.mp hl with h | h
        · exact htL l (List.mem_cons_of_mem _ h)
        · exact htR l h

theorem expandResults_ok (env : Env) (max_split_depth payload_size_cap max_retries : ℕ)
    (hEnc : ∀ a b c d, env.encodeErr a b c d = none) :
    ∀ base : List SegResult,
      (∀ r ∈ base, r.split_required = false → r.text.isSome = true) →
      ∃ exp, expandResults env max_split_depth payload_size_cap max_retries base = .ok exp
        ∧ (∀ l ∈ exp, l.text.isSome = true)
        ∧ ∀ r ∈ base, ∃ l ∈ exp, l.start_s = r.start_s := by
  intro base
  induction base with
  | nil =>
    intro _
    exact ⟨[], rfl, by simp, by simp⟩
  | cons r rest ih =>
    intro hbase
    obtain ⟨exp', hexp', htext', hcov'⟩ := ih
      (fun x hx => hbase x (List.mem_cons_of_mem r hx))
    by_cases hsp : r.split_required = true
    · obtain ⟨l0, restL, tr, hL, hs0, ht0⟩ := splitGo_ok env payload_size_cap max_retries hEnc
        (max_split_depth - 0) (r.segment_path.getD "") r.start_s r.end_s
      refine ⟨(l0 :: restL) ++ exp', ?_, ?_, ?_⟩
      · rw [expandResults, if_pos hsp, _recursive_split_and_transcribe, hL, hexp']
      · intro l hl
        rcases List.mem_append.mp hl with h | h
        · exact ht0 l h
        · exact htext' l h
      · intro x hx
        rcases List.mem_cons.mp hx with rfl | hx
        · exact ⟨l0, List.mem_append.mpr (Or.inl (List.mem_cons_self _ _)), hs0⟩
        · obtain ⟨l, hl, hls⟩ := hcov' x hx
          exact ⟨l, List.mem_append.mpr (Or.inr hl), hls⟩
    · refine ⟨r :: exp', ?_, ?_, ?_⟩
      · rw [expandResults, if_neg hsp, hexp']
      · intro l hl
        rcases List.mem_cons.mp hl with rfl | hl
        · exact hbase l (List.mem_cons_self _ _) (Bool.not_eq_true _ ▸ hsp)
        · exact htext' l hl
      · intro x hx
        rcases List.mem_cons.mp hx with rfl | hx
        · exact ⟨x, List.mem_cons_self _ _, rfl⟩
        · obtain ⟨l, hl, hls⟩ := hcov' x hx
          exact ⟨l, List.mem_cons_of_mem _ hl, hls⟩

theorem runJobs_facts (env : Env) (work_dir : String) (max_retries payload_size_cap : ℕ) :
    ∀ (jobs : List (String × ℚ × ℚ)) (i : ℕ),
      (∀ r ∈ runJobs env work_dir max_retries payload_size_cap i jobs,
        r.split_required = false → r.text.isSome = true)
      ∧ ∀ job ∈ jobs, ∃ r ∈ runJobs env work_dir max_retries payload_size_cap i jobs,
          r.start_s = job.2.1 := by
  intro jobs
  induction jobs with
  | nil => intro i; exact ⟨by simp [runJobs], by simp⟩
  | cons j rest ih =>
    intro i
    obtain ⟨f, se⟩ := j
    constructor
    · intro r hr
      rw [runJobs] at hr
      rcases List.mem_cons.mp hr with rfl | hr
      · exact transcribe_segment_text _ _ _ _ _ _ _
      · exact (ih (i + 1)).1 r hr
    · intro job hjob
      rcases List.mem_cons.mp hjob with rfl | hjob
      · refine ⟨(transcribe_segment (env.remote (pathJoin work_dir f)) (pathJoin work_dir f)
          (i : ℚ) se.1 se.2 max_retries payload_size_cap).1, ?_, ?_⟩
        · rw [runJobs]; exact List.mem_cons_self _ _
        · exact (transcribe_segment_range _ _ _ _ _ _ _).1
      · obtain ⟨r, hr, hrs⟩ := (ih (i + 1)).2 job hjob
        refine ⟨r, ?_, hrs⟩
        rw [runJobs]
        exact List.mem_cons_of_mem _ hr

/-- C1 (amended): the Duration Prober cannot abort a run (its failures are
caught inside `_probe_duration`), and whenever no `_encode_slice` invocation
raises, `transcribe_file` completes for every input: it returns a transcript
together with the segment list, every expanded leaf carries text (real
transcript or placeholder — never a bare split signal), and every requested
segment contributes at least one leaf starting at the segment's start
offset.  (When `_encode_slice` does raise, the exception propagates and
aborts the run — see the counterexample.) -/
theorem C1_no_failure_abort (env : Env)
    (hEnc : ∀ a b c d, env.encodeErr a b c d = none)
    (work_dir : String)
    (seg_seconds max_concurrency max_segment_retries max_payload_size max_split_depth : ℕ) :
    ∃ (txt : String) (exp : List SegResult),
      expandResults env max_split_depth max_payload_size max_segment_retries
          (runJobs env work_dir max_segment_retries max_payload_size 0
            (jobsOf env work_dir seg_seconds)) = .ok exp
      ∧ transcribe_file env work_dir seg_seconds max_concurrency max_segment_retries
          max_payload_size max_split_depth = .ok (txt, segmentsOf env)
      ∧ (∀ l ∈ exp, l.text.isSome = true)
      ∧ ∀ job ∈ jobsOf env work_dir seg_seconds, ∃ l ∈ exp, l.start_s = job.2.1 := by
  obtain ⟨hbase1, hbase2⟩ := runJobs_facts env work_dir max_segment_retries max_payload_size
    (jobsOf env work_dir seg_seconds) 0
  obtain ⟨exp, hexp, htext, hcov⟩ := expandResults_ok env max_split_depth max_payload_size
    max_segment_retries hEnc _ hbase1
  have hcover : ∀ job ∈ jobsOf env work_dir seg_seconds, ∃ l ∈ exp, l.start_s = job.2.1 := by
    intro job hjob
    obtain ⟨r, hr, hrs⟩ := hbase2 job hjob
    obtain ⟨l, hl, hls⟩ := hcov r hr
    exact ⟨l, hl, by rw [hls, hrs]⟩
  by_cases hseg : (segmentsOf env).isEmpty = true
  · have hnil := List.isEmpty_iff.mp hseg
    refine ⟨"", exp, hexp, ?_, htext, hcover⟩
    rw [transcribe_file]
    simp only [hseg, if_true]
    rw [hnil]
  · refine ⟨String.intercalate "\n\n" ((sortResults exp).map (fun r => r.text.getD "")),
      exp, hexp, ?_, htext, hcover⟩
    rw [transcribe_file]
    simp only [hseg, if_false]
    rw [hexp]
    rfl

/-- C1 counterexample: with the Slice Encoder raising, `transcribe_file` does
not complete with a transcript covering the failed segment — the exception
propagates and the whole run aborts with it. -/
theorem C1_counterexample :
    transcribe_file envEncodeFail "wd" 30 1 0 10 4 = .error "boom-encode" := by
  with_unfolding_all decide

theorem C1_witness :
    (∀ a b c d, envSplitOk.encodeErr a b c d = none)
    ∧ ∃ (txt : String) (exp : List SegResult),
        expandResults envSplitOk 4 10 0
            (runJobs envSplitOk "wd" 0 10 0 (jobsOf envSplitOk "wd" 30)) = .ok exp
        ∧ transcribe_file envSplitOk "wd" 30 1 0 10 4 = .ok (txt, segmentsOf envSplitOk)
        ∧ (∀ l ∈ exp, l.text.isSome = true)
        ∧ ∀ job ∈ jobsOf envSplitOk "wd" 30, ∃ l ∈ exp, l.start_s = job.2.1 :=
  ⟨fun _ _ _ _ => rfl,
    C1_no_failure_abort envSplitOk (fun _ _ _ _ => rfl) "wd" 30 1 0 10 4⟩
